import Mathlib

/-!
Shallow embedding of `llm-service/forward_reference.py`: a deterministic,
integer-only transformer forward pass using fixed-point (scaled integer)
arithmetic.  Python `//` is floor division, embedded as `Int.fdiv`.
Python list indexing that may go out of range (the token-embedding lookup)
is embedded as an `Option`-returning accessor `pyget` that mirrors Python
semantics: non-negative indices in `[0, len)` succeed, negative indices in
`[-len, 0)` wrap from the end, anything else is an `IndexError` (`none`).
-/

namespace ForwardRef

def SCALE : Int := 10000

/-- Model configuration, from `config.txt` (all fields positive integers). -/
structure Config where
  n_embd : Nat
  n_head : Nat
  n_layer : Nat
  vocab_size : Nat
  block_size : Nat
deriving Repr, DecidableEq

def Config.head_dim (c : Config) : Nat := c.n_embd / c.n_head

def Config.hidden_dim (c : Config) : Nat := 4 * c.n_embd

/-- All model weights; per-layer tensors are indexed by layer number. -/
structure Weights where
  wte : List Int
  wpe : List Int
  ln_f_w : List Int
  ln_f_b : List Int
  ln1_w : Nat → List Int
  ln1_b : Nat → List Int
  attn_w : Nat → List Int
  attn_b : Nat → List Int
  attn_proj_w : Nat → List Int
  attn_proj_b : Nat → List Int
  ln2_w : Nat → List Int
  ln2_b : Nat → List Int
  ffn_fc1_w : Nat → List Int
  ffn_fc1_b : Nat → List Int
  ffn_fc2_w : Nat → List Int
  ffn_fc2_b : Nat → List Int

/-- Python list indexing: `l[i]` with negative-index wrap-around, `none` on
`IndexError`. -/
def pyget (l : List Int) (i : Int) : Option Int :=
  if 0 ≤ i then l[i.toNat]?
  else if 0 ≤ i + l.length then l[(i + l.length).toNat]?
  else none

/-- The Taylor loop of `fp_exp`: `for i in range(1, 16)` with
`term = (term * x) // (i * SCALE); result += term; if term < 1: break`.
`fuel` counts the remaining iterations (15 at entry), `i` the Python loop
index (1 at entry). -/
def expLoop (x : Int) : Nat → Nat → Int → Int → Int
  | 0, _, _, result => result
  | fuel + 1, i, term, result =>
    let term2 := (term * x).fdiv (i * SCALE)
    let result2 := result + term2
    if term2 < 1 then result2 else expLoop x fuel (i + 1) term2 result2

/-- Fixed-point exponential (`fp_exp` in the source): clamp to
`[-8*SCALE, 8*SCALE]` (strictly below the lower bound returns 0), Taylor
series on `|x|`, reciprocal for negative inputs. -/
def fp_exp (x : Int) : Int :=
  let x1 := if x > 8 * SCALE then 8 * SCALE else x
  if x1 < -(8 * SCALE) then 0
  else if x1 < 0 then
    let result := expLoop (-x1) 15 1 SCALE SCALE
    if result = 0 then 0 else (SCALE * SCALE).fdiv result
  else expLoop x1 15 1 SCALE SCALE

/-- Newton iteration of `fp_sqrt`: up to 20 steps, stop when successive
guesses differ by less than 2. -/
def sqrtLoop (x : Int) : Nat → Int → Int
  | 0, guess => guess
  | fuel + 1, guess =>
    let div := (x * SCALE).fdiv guess
    let guess2 := (guess + div).fdiv 2
    if |guess2 - guess| < 2 then guess2 else sqrtLoop x fuel guess2

/-- Fixed-point square root via Newton's method (`fp_sqrt` in the source). -/
def fp_sqrt (x : Int) : Int :=
  if x ≤ 0 then 0
  else
    let guess := x.fdiv 2
    let guess := if guess < SCALE then SCALE else guess
    sqrtLoop x 20 guess

/-- Fixed-point tanh (`fp_tanh` in the source). -/
def fp_tanh (x : Int) : Int :=
  if x > 4 * SCALE then SCALE
  else if x < -(4 * SCALE) then -SCALE
  else
    let exp_2x := fp_exp (2 * x)
    let num := exp_2x - SCALE
    let denom := exp_2x + SCALE
    if denom = 0 then SCALE
    else (num * SCALE).fdiv denom

/-- Fixed-point GELU activation (`fp_gelu` in the source). -/
def fp_gelu (x : Int) : Int :=
  let sqrt_2_pi : Int := 7979
  let coeff : Int := 447
  let x_sq := (x * x).fdiv SCALE
  let x_cu := (x_sq * x).fdiv SCALE
  let cubic_term := (coeff * x_cu).fdiv SCALE
  let inner := x + cubic_term
  let inner2 := (sqrt_2_pi * inner).fdiv SCALE
  let tanh_val := fp_tanh inner2
  let half_term := (SCALE + tanh_val).fdiv 2
  (x * half_term).fdiv SCALE

/-- Python `max(arr)` on a (non-empty) list. -/
def listMax : List Int → Int
  | [] => 0
  | x :: xs => xs.foldl max x

/-- The shifted exponentials computed inside `fp_softmax`. -/
def softmaxExps (arr : List Int) : List Int :=
  arr.map (fun x => fp_exp (x - listMax arr))

/-- The accumulated total of the shifted exponentials inside `fp_softmax`. -/
def softmaxTotal (arr : List Int) : Int :=
  (softmaxExps arr).sum

/-- Fixed-point softmax (`fp_softmax` in the source): subtract the row max,
exponentiate, divide each by the total; uniform fallback if the total is 0. -/
def fp_softmax (arr : List Int) : List Int :=
  let total := softmaxTotal arr
  (softmaxExps arr).map
    (fun e => if total > 0 then (e * SCALE).fdiv total else SCALE.fdiv arr.length)

/-- Layer normalization (`layer_norm` in the source). -/
def layer_norm (inp gamma beta : List Int) : List Int :=
  let n : Int := inp.length
  let eps : Int := 100
  let mean := inp.sum.fdiv n
  let var_sum := (inp.map (fun x => ((x - mean) ^ 2).fdiv SCALE)).sum
  let variance := var_sum.fdiv n
  let std0 := fp_sqrt (variance + eps)
  let std := if std0 < 100 then 100 else std0
  (List.range inp.length).map (fun i =>
    let normalized := ((inp.getD i 0 - mean) * SCALE).fdiv std
    let scaled := (normalized * gamma.getD i 0).fdiv SCALE
    scaled + beta.getD i 0)

/-- Dot product `sum(Q[i][d] * K[j][d] // SCALE for d in range(head_dim))`
inside the attention score. -/
def dotQK (Qi Kj : List Int) (head_dim : Nat) : Int :=
  ((List.range head_dim).map (fun d => (Qi.getD d 0 * Kj.getD d 0).fdiv SCALE)).sum

/-- The raw attention score row for query position `i`: future positions get
the sentinel `-1000000000`, past positions the scaled dot product. -/
def attnScores (Q K : List (List Int)) (head_dim : Nat) (scal : Int)
    (seq_len i : Nat) : List Int :=
  (List.range seq_len).map (fun j =>
    if j > i then -1000000000
    else (dotQK (Q.getD i []) (K.getD j []) head_dim * SCALE).fdiv scal)

/-- QKV projection: `qkv[t][i] = attn_b[i] + Σ_j hidden[t][j]*attn_w[j*3E+i]//SCALE`. -/
def qkvProject (hidden : List (List Int)) (n_embd : Nat)
    (attn_w attn_b : List Int) : List (List Int) :=
  let qkv_dim := 3 * n_embd
  hidden.map (fun ht =>
    (List.range qkv_dim).map (fun i =>
      attn_b.getD i 0 +
        ((List.range n_embd).map
          (fun j => (ht.getD j 0 * attn_w.getD (j * qkv_dim + i) 0).fdiv SCALE)).sum))

/-- Extract one head's slice: `row[offset + d]` for `d < head_dim`, per token. -/
def sliceHead (qkv : List (List Int)) (offset head_dim : Nat) : List (List Int) :=
  qkv.map (fun row => (List.range head_dim).map (fun d => row.getD (offset + d) 0))

/-- One head's output: per query position, softmax the score row and take the
weighted sum of the value vectors. -/
def headOutput (Q K V : List (List Int)) (head_dim : Nat) (scal : Int)
    (seq_len : Nat) : List (List Int) :=
  (List.range seq_len).map (fun i =>
    let probs := fp_softmax (attnScores Q K head_dim scal seq_len i)
    (List.range head_dim).map (fun d =>
      ((List.range seq_len).map
        (fun j => (probs.getD j 0 * (V.getD j []).getD d 0).fdiv SCALE)).sum))

/-- Multi-head causal self-attention (`multi_head_attention` in the source). -/
def multi_head_attention (cfg : Config) (w : Weights) (layer : Nat)
    (hidden : List (List Int)) : List (List Int) :=
  let seq_len := hidden.length
  let n_embd := cfg.n_embd
  let head_dim := cfg.head_dim
  let qkv := qkvProject hidden n_embd (w.attn_w layer) (w.attn_b layer)
  let scal := fp_sqrt (head_dim * SCALE)
  let headOuts := (List.range cfg.n_head).map (fun h =>
    let off := h * head_dim
    headOutput (sliceHead qkv off head_dim)
      (sliceHead qkv (n_embd + off) head_dim)
      (sliceHead qkv (2 * n_embd + off) head_dim) head_dim scal seq_len)
  let concat := (List.range seq_len).map (fun t =>
    (headOuts.map (fun ho => ho.getD t [])).flatten)
  concat.map (fun ct =>
    (List.range n_embd).map (fun i =>
      (w.attn_proj_b layer).getD i 0 +
        ((List.range n_embd).map
          (fun j => (ct.getD j 0 *
            (w.attn_proj_w layer).getD (j * n_embd + i) 0).fdiv SCALE)).sum))

/-- Feed-forward network (`feed_forward` in the source): expand to 4E with
GELU, contract back to E. -/
def feed_forward (cfg : Config) (w : Weights) (layer : Nat)
    (hidden : List (List Int)) : List (List Int) :=
  let n_embd := cfg.n_embd
  let hidden_dim := cfg.hidden_dim
  hidden.map (fun ht =>
    let intermediate := (List.range hidden_dim).map (fun i =>
      fp_gelu ((w.ffn_fc1_b layer).getD i 0 +
        ((List.range n_embd).map
          (fun j => (ht.getD j 0 *
            (w.ffn_fc1_w layer).getD (j * hidden_dim + i) 0).fdiv SCALE)).sum))
    (List.range n_embd).map (fun i =>
      (w.ffn_fc2_b layer).getD i 0 +
        ((List.range hidden_dim).map
          (fun j => (intermediate.getD j 0 *
            (w.ffn_fc2_w layer).getD (j * n_embd + i) 0).fdiv SCALE)).sum))

/-- One transformer block (`transformer_block` in the source): pre-norm
attention with residual, then pre-norm feed-forward with residual. -/
def transformer_block (cfg : Config) (w : Weights) (layer : Nat)
    (hidden : List (List Int)) : List (List Int) :=
  let normed1 := hidden.map (fun ht => layer_norm ht (w.ln1_w layer) (w.ln1_b layer))
  let attn_out := multi_head_attention cfg w layer normed1
  let residual1 := (List.range hidden.length).map (fun t =>
    (List.range (hidden.getD t []).length).map (fun i =>
      (hidden.getD t []).getD i 0 + (attn_out.getD t []).getD i 0))
  let normed2 := residual1.map (fun rt => layer_norm rt (w.ln2_w layer) (w.ln2_b layer))
  let ffn_out := feed_forward cfg w layer normed2
  (List.range residual1.length).map (fun t =>
    (List.range (residual1.getD t []).length).map (fun i =>
      (residual1.getD t []).getD i 0 + (ffn_out.getD t []).getD i 0))

/-- Sequence the `Option`-valued embedding of each position
(the first failure aborts, like a Python exception). -/
def optMap {α : Type} (f : Nat → Option α) : List Nat → Option (List α)
  | [] => some []
  | i :: is =>
    match f i, optMap f is with
    | some a, some r => some (a :: r)
    | _, _ => none

/-- Embedding row for one position:
`[wte[tok*n_embd + i] + wpe[t*n_embd + i] for i in range(n_embd)]`, with
Python list-index semantics on both lookups. -/
def embedRow (wte wpe : List Int) (n_embd : Nat) (tok : Int) (t : Nat) :
    Option (List Int) :=
  optMap (fun i => do
    let a ← pyget wte (tok * n_embd + i)
    let b ← pyget wpe (t * n_embd + i)
    pure (a + b)) (List.range n_embd)

/-- Token + position embeddings for the whole (already truncated) sequence. -/
def embedAll (cfg : Config) (w : Weights) (tokens : List Int) :
    Option (List (List Int)) :=
  optMap (fun t => embedRow w.wte w.wpe cfg.n_embd (tokens.getD t 0) t)
    (List.range tokens.length)

/-- Apply all transformer blocks in layer order. -/
def afterBlocks (cfg : Config) (w : Weights) (hidden : List (List Int)) :
    List (List Int) :=
  (List.range cfg.n_layer).foldl (fun h layer => transformer_block cfg w layer h) hidden

/-- Final projection to vocabulary logits with weight tying:
`logit[v] = Σ_i last_hidden[i]*wte[v*n_embd+i]//SCALE`. -/
def projectLogits (cfg : Config) (wte : List Int) (last_hidden : List Int) :
    List Int :=
  (List.range cfg.vocab_size).map (fun v =>
    ((List.range cfg.n_embd).map
      (fun i => (last_hidden.getD i 0 * wte.getD (v * cfg.n_embd + i) 0).fdiv SCALE)).sum)

/-- The forward pass after truncation: embed, run the blocks, final layer
norm on the last position only, project to logits.  `hidden[-1]` on an
empty sequence is a Python `IndexError`, hence the `getLast?`. -/
def forwardBody (cfg : Config) (w : Weights) (tokens : List Int) :
    Option (List Int) :=
  match embedAll cfg w tokens with
  | none => none
  | some hidden0 =>
    match (afterBlocks cfg w hidden0).getLast? with
    | none => none
    | some lastRow =>
      some (projectLogits cfg w.wte (layer_norm lastRow w.ln_f_w w.ln_f_b))

/-- Full forward pass (`forward` in the source): truncate to the first
`block_size` tokens if longer, then run the pipeline. -/
def forward (cfg : Config) (w : Weights) (tokens : List Int) : Option (List Int) :=
  forwardBody cfg w
    (if tokens.length > cfg.block_size then tokens.take cfg.block_size else tokens)

/-- A small concrete configuration used to exercise the pipeline:
2-dimensional embeddings, one head, one layer, vocabulary of 2,
context window of 2. -/
def cfgX : Config :=
  { n_embd := 2, n_head := 1, n_layer := 1, vocab_size := 2, block_size := 2 }

/-- Concrete weights for `cfgX`: identity-like layer norms, zero attention
and feed-forward matrices, distinct token and position embeddings. -/
def wX : Weights :=
  { wte := [10000, -10000, 20000, 5000]
    wpe := [1000, 2000, 3000, 4000]
    ln_f_w := [10000, 10000]
    ln_f_b := [100, 200]
    ln1_w := fun _ => [10000, 10000]
    ln1_b := fun _ => [0, 0]
    attn_w := fun _ => List.replicate 12 0
    attn_b := fun _ => List.replicate 6 0
    attn_proj_w := fun _ => List.replicate 4 0
    attn_proj_b := fun _ => List.replicate 2 0
    ln2_w := fun _ => [10000, 10000]
    ln2_b := fun _ => [0, 0]
    ffn_fc1_w := fun _ => List.replicate 16 0
    ffn_fc1_b := fun _ => List.replicate 8 0
    ffn_fc2_w := fun _ => List.replicate 16 0
    ffn_fc2_b := fun _ => List.replicate 2 0 }

end ForwardRef

namespace ForwardRef

/-! ### Helper lemmas -/

lemma sum_range_list (f : Nat → Int) (n : Nat) :
    ((List.range n).map f).sum = ∑ i ∈ Finset.range n, f i := by
  induction n with
  | zero => simp
  | succ m ih => rw [List.range_succ, List.map_append, List.sum_append,
      Finset.sum_range_succ, ih]; simp

lemma list_sum_getD (l : List Int) :
    l.sum = ∑ i ∈ Finset.range l.length, l.getD i 0 := by
  induction l with
  | nil => simp
  | cons a t ih =>
    rw [List.sum_cons, List.length_cons, Finset.sum_range_succ']
    simp only [List.getD_cons_succ, List.getD_cons_zero]
    rw [ih]; ring

lemma getD_map_range (f : Nat → Int) {n i : Nat} (h : i < n) :
    ((List.range n).map f).getD i 0 = f i := by
  rw [List.getD_eq_getElem?_getD, List.getElem?_map, List.getElem?_range h]
  rfl

lemma getD_map_of_lt (f : Int → Int) (l : List Int) {j : Nat} (h : j < l.length) :
    (l.map f).getD j 0 = f (l.getD j 0) := by
  rw [List.getD_eq_getElem?_getD, List.getD_eq_getElem?_getD, List.getElem?_map,
    List.getElem?_eq_getElem h]
  rfl

lemma foldl_max_basic (xs : List Int) (a : Int) :
    a ≤ xs.foldl max a ∧ (xs.foldl max a = a ∨ xs.foldl max a ∈ xs) ∧
      ∀ x ∈ xs, x ≤ xs.foldl max a := by
  induction xs generalizing a with
  | nil => simp
  | cons y ys ih =>
    obtain ⟨h1, h2, h3⟩ := ih (max a y)
    refine ⟨le_trans (le_max_left a y) h1, ?_, ?_⟩
    · rcases h2 with h | h
      · rcases max_choice a y with hm | hm
        · rw [List.foldl_cons, h, hm]; exact Or.inl rfl
        · rw [List.foldl_cons, h, hm]; exact Or.inr (List.mem_cons_self y ys)
      · exact Or.inr (List.mem_cons_of_mem y h)
    · intro x hx
      rcases List.mem_cons.mp hx with rfl | hx
      · exact le_trans (le_max_right a x) h1
      · exact h3 x hx

lemma listMax_mem {arr : List Int} (h : arr ≠ []) : listMax arr ∈ arr := by
  match arr with
  | [] => exact absurd rfl h
  | x :: xs =>
    rcases (foldl_max_basic xs x).2.1 with h2 | h2
    · rw [listMax, h2]; exact List.mem_cons_self x xs
    · exact List.mem_cons_of_mem x h2

lemma le_listMax {arr : List Int} {x : Int} (hx : x ∈ arr) : x ≤ listMax arr := by
  match arr with
  | x' :: xs =>
    rcases List.mem_cons.mp hx with rfl | hx
    · exact (foldl_max_basic xs x).1
    · exact (foldl_max_basic xs x').2.2 x hx

lemma expLoop_ge {x : Int} (hx : 0 ≤ x) :
    ∀ (fuel i : Nat) (term result : Int), 0 ≤ term →
      result ≤ expLoop x fuel i term result := by
  intro fuel
  induction fuel with
  | zero => intro i term result _; simp [expLoop]
  | succ f ih =>
    intro i term result hterm
    rw [expLoop]
    have hterm2 : 0 ≤ (term * x).fdiv (i * SCALE) :=
      Int.fdiv_nonneg (mul_nonneg hterm hx)
        (mul_nonneg (Int.natCast_nonneg i) (by norm_num [SCALE]))
    split
    · omega
    · exact le_trans (by omega) (ih (i + 1) _ _ hterm2)

lemma expLoop_ge_scale {x : Int} (hx : 0 ≤ x) :
    SCALE ≤ expLoop x 15 1 SCALE SCALE :=
  expLoop_ge hx 15 1 SCALE SCALE (by norm_num [SCALE])

lemma fp_exp_nonneg (x : Int) : 0 ≤ fp_exp x := by
  rw [fp_exp]
  by_cases h1 : (if x > 8 * SCALE then 8 * SCALE else x) < -(8 * SCALE)
  · rw [if_pos h1]
  · rw [if_neg h1]
    by_cases h2 : (if x > 8 * SCALE then 8 * SCALE else x) < 0
    · rw [if_pos h2]
      have hres := expLoop_ge_scale
        (x := -(if x > 8 * SCALE then 8 * SCALE else x)) (by omega)
      have hres0 : (0 : Int) ≤
          expLoop (-(if x > 8 * SCALE then 8 * SCALE else x)) 15 1 SCALE SCALE :=
        le_trans (by norm_num [SCALE]) hres
      show 0 ≤ if expLoop (-(if x > 8 * SCALE then 8 * SCALE else x)) 15 1 SCALE SCALE = 0
        then 0
        else (SCALE * SCALE).fdiv
          (expLoop (-(if x > 8 * SCALE then 8 * SCALE else x)) 15 1 SCALE SCALE)
      by_cases h3 : expLoop (-(if x > 8 * SCALE then 8 * SCALE else x)) 15 1 SCALE SCALE = 0
      · rw [if_pos h3]
      · rw [if_neg h3]
        exact Int.fdiv_nonneg (by norm_num [SCALE]) hres0
    · rw [if_neg h2]
      have hres := expLoop_ge_scale
        (x := if x > 8 * SCALE then 8 * SCALE else x) (by omega)
      exact le_trans (by norm_num [SCALE]) hres

lemma fp_exp_zero : fp_exp 0 = SCALE := by decide

lemma fp_exp_eq_zero_of_lt {x : Int} (h : x < -(8 * SCALE)) : fp_exp x = 0 := by
  have h1 : ¬ x > 8 * SCALE := by simp only [SCALE] at h ⊢; omega
  rw [fp_exp, if_neg h1, if_pos h]

lemma softmaxExps_nonneg (arr : List Int) : ∀ e ∈ softmaxExps arr, 0 ≤ e := by
  intro e he
  obtain ⟨x, _, rfl⟩ := List.mem_map.mp he
  exact fp_exp_nonneg _

lemma softmaxExps_length (arr : List Int) : (softmaxExps arr).length = arr.length :=
  List.length_map arr _

lemma softmaxTotal_pos {arr : List Int} (h : arr ≠ []) : 0 < softmaxTotal arr := by
  have hm : listMax arr ∈ arr := listMax_mem h
  have hmem : fp_exp (listMax arr - listMax arr) ∈ softmaxExps arr :=
    List.mem_map_of_mem _ hm
  rw [sub_self, fp_exp_zero] at hmem
  have hle := List.single_le_sum (softmaxExps_nonneg arr) _ hmem
  have : (0 : Int) < SCALE := by norm_num [SCALE]
  exact lt_of_lt_of_le this hle

lemma fp_softmax_eq_div {arr : List Int} (h : arr ≠ []) :
    fp_softmax arr =
      (softmaxExps arr).map (fun e => (e * SCALE).fdiv (softmaxTotal arr)) := by
  have hpos := softmaxTotal_pos h
  simp only [fp_softmax, gt_iff_lt, hpos, if_true]

lemma list_sum_map_getD (f : Int → Int) (l : List Int) :
    (l.map f).sum = ∑ i ∈ Finset.range l.length, f (l.getD i 0) := by
  induction l with
  | nil => simp
  | cons a t ih =>
    rw [List.map_cons, List.sum_cons, List.length_cons, Finset.sum_range_succ']
    simp only [List.getD_cons_succ, List.getD_cons_zero]
    rw [ih]; ring

lemma if_lt_eq_max (a : Int) : (if a < 100 then 100 else a) = max a 100 := by
  rw [max_def]; split_ifs <;> omega

lemma sum_ediv_bounds {T : Int} (hT : 0 < T) (l : List Int) :
    (l.map (fun e => (e * SCALE) / T)).sum * T ≤ l.sum * SCALE ∧
    l.sum * SCALE + (l.length : Int) ≤
      (l.map (fun e => (e * SCALE) / T)).sum * T + (l.length : Int) * T := by
  induction l with
  | nil => simp
  | cons a t ih =>
    obtain ⟨ih1, ih2⟩ := ih
    have h1 : (a * SCALE) / T * T ≤ a * SCALE := Int.ediv_mul_le _ (ne_of_gt hT)
    have h2 : a * SCALE < ((a * SCALE) / T + 1) * T :=
      Int.lt_ediv_add_one_mul_self _ hT
    simp only [List.map_cons, List.sum_cons, List.length_cons]
    push_cast
    constructor
    · nlinarith
    · nlinarith

lemma optMap_congr {α : Type} {f g : Nat → Option α} {l : List Nat}
    (h : ∀ i ∈ l, f i = g i) : optMap f l = optMap g l := by
  induction l with
  | nil => rfl
  | cons a t ih =>
    rw [optMap, optMap, h a (List.mem_cons_self a t),
      ih (fun i hi => h i (List.mem_cons_of_mem a hi))]

lemma optMap_eq_some {α : Type} (f : Nat → Option α) (l : List Nat)
    (h : ∀ i ∈ l, (f i).isSome) :
    ∃ r, optMap f l = some r ∧ r.length = l.length := by
  induction l with
  | nil => exact ⟨[], rfl, rfl⟩
  | cons a t ih =>
    obtain ⟨x, hx⟩ := Option.isSome_iff_exists.mp (h a (List.mem_cons_self a t))
    obtain ⟨r, hr, hlen⟩ := ih (fun i hi => h i (List.mem_cons_of_mem a hi))
    exact ⟨x :: r, by rw [optMap, hx, hr], by simp [hlen]⟩

lemma getD_mem_of_lt (l : List Int) {t : Nat} (h : t < l.length) :
    l.getD t 0 ∈ l := by
  have he : l.getD t 0 = l[t] := by
    rw [List.getD_eq_getElem?_getD, List.getElem?_eq_getElem h]
    rfl
  rw [he]
  exact List.getElem_mem h

lemma pyget_some {l : List Int} {i : Int} (h0 : 0 ≤ i) (h1 : i < (l.length : Int)) :
    ∃ a, pyget l i = some a := by
  rw [pyget, if_pos h0]
  have hlt : i.toNat < l.length := by omega
  exact ⟨_, List.getElem?_eq_getElem hlt⟩

lemma pyget_neg_wrap {l : List Int} {V E : Nat} (hlen : l.length = V * E)
    {tok : Int} (hm : -(V : Int) ≤ tok) (hn : tok < 0) {i : Nat} (hi : i < E) :
    pyget l (tok * E + i) = pyget l ((tok + V) * E + i) := by
  have hE0 : (0 : Int) ≤ (E : Int) := Int.natCast_nonneg E
  have hiE : (i : Int) < (E : Int) := by exact_mod_cast hi
  have hi0 : (0 : Int) ≤ (i : Int) := Int.natCast_nonneg i
  have h1 : tok * E ≤ -(E : Int) := by
    have := mul_le_mul_of_nonneg_right (show tok ≤ -1 by omega) hE0
    linarith
  have hidx_neg : tok * E + i < 0 := by linarith
  have h2 : -((V : Int) * E) ≤ tok * E := by
    have := mul_le_mul_of_nonneg_right hm hE0
    linarith
  have hlenI : (l.length : Int) = (V : Int) * E := by rw [hlen]; push_cast; ring
  have hidx_wrap : 0 ≤ tok * E + i + (l.length : Int) := by rw [hlenI]; linarith
  have htv : (0 : Int) ≤ tok + V := by omega
  have hidx2 : 0 ≤ (tok + V) * E + i := by
    have := mul_nonneg htv hE0
    linarith
  rw [pyget, pyget, if_neg (not_le.mpr hidx_neg), if_pos hidx_wrap, if_pos hidx2]
  have heq : tok * E + i + (l.length : Int) = (tok + V) * E + i := by
    rw [hlenI]; ring
  rw [heq]

lemma embedRow_wrap {wte wpe : List Int} {V E : Nat}
    (hlen : wte.length = V * E) {tok : Int} (hm : -(V : Int) ≤ tok)
    (hn : tok < 0) (t : Nat) :
    embedRow wte wpe E tok t = embedRow wte wpe E (tok + V) t := by
  rw [embedRow, embedRow]
  apply optMap_congr
  intro i hi
  rw [pyget_neg_wrap hlen hm hn (List.mem_range.mp hi)]

lemma embedRow_isSome {wte wpe : List Int} {V W E : Nat}
    (hwte : wte.length = V * E) (hwpe : wpe.length = W * E)
    {tok : Int} (h0 : 0 ≤ tok) (h1 : tok < (V : Int)) {t : Nat} (ht : t < W) :
    (embedRow wte wpe E tok t).isSome := by
  rw [embedRow]
  have hrec : ∀ i ∈ List.range E,
      ((do
        let a ← pyget wte (tok * E + i)
        let b ← pyget wpe (t * E + i)
        pure (a + b) : Option Int)).isSome := by
    intro i hi
    have hiE : (i : Int) < (E : Int) := by exact_mod_cast List.mem_range.mp hi
    have hi0 : (0 : Int) ≤ (i : Int) := Int.natCast_nonneg i
    have hE0 : (0 : Int) ≤ (E : Int) := Int.natCast_nonneg E
    have ha : ∃ a, pyget wte (tok * E + i) = some a := by
      refine pyget_some (by positivity) ?_
      have hb1 : tok * E ≤ ((V : Int) - 1) * E :=
        mul_le_mul_of_nonneg_right (by omega) hE0
      have : (wte.length : Int) = (V : Int) * E := by rw [hwte]; push_cast; ring
      rw [this]; nlinarith
    have hb : ∃ b, pyget wpe ((t : Int) * E + i) = some b := by
      refine pyget_some (by positivity) ?_
      have htW : (t : Int) ≤ (W : Int) - 1 := by omega
      have hb1 : (t : Int) * E ≤ ((W : Int) - 1) * E :=
        mul_le_mul_of_nonneg_right htW hE0
      have : (wpe.length : Int) = (W : Int) * E := by rw [hwpe]; push_cast; ring
      rw [this]; nlinarith
    obtain ⟨a, ha⟩ := ha
    obtain ⟨b, hb⟩ := hb
    simp [ha, hb]
  obtain ⟨r, hr, _⟩ := optMap_eq_some _ _ hrec
  rw [hr]
  rfl

lemma transformer_block_length (cfg : Config) (w : Weights) (layer : Nat)
    (hidden : List (List Int)) :
    (transformer_block cfg w layer hidden).length = hidden.length := by
  rw [transformer_block]
  simp [List.length_map, List.length_range]

lemma foldl_block_length (cfg : Config) (w : Weights) (l : List Nat)
    (hidden : List (List Int)) :
    (l.foldl (fun h layer => transformer_block cfg w layer h) hidden).length =
      hidden.length := by
  induction l generalizing hidden with
  | nil => rfl
  | cons a t ih => rw [List.foldl_cons, ih, transformer_block_length]

lemma afterBlocks_length (cfg : Config) (w : Weights) (hidden : List (List Int)) :
    (afterBlocks cfg w hidden).length = hidden.length :=
  foldl_block_length cfg w _ hidden

lemma embedAll_neg_wrap (cfg : Config) (w : Weights) (toks : List Int)
    (hwte : w.wte.length = cfg.vocab_size * cfg.n_embd)
    (hrange : ∀ tok ∈ toks,
      -(cfg.vocab_size : Int) ≤ tok ∧ tok < (cfg.vocab_size : Int)) :
    embedAll cfg w toks = embedAll cfg w
      (toks.map (fun tok => if tok < 0 then tok + (cfg.vocab_size : Int) else tok)) := by
  rw [embedAll, embedAll, List.length_map]
  apply optMap_congr
  intro t ht
  have htl : t < toks.length := List.mem_range.mp ht
  rw [getD_map_of_lt _ _ htl]
  obtain ⟨hlo, hhi⟩ := hrange _ (getD_mem_of_lt toks htl)
  by_cases hneg : toks.getD t 0 < 0
  · rw [if_pos hneg]
    exact embedRow_wrap hwte hlo hneg t
  · rw [if_neg hneg]

lemma embedAll_some (cfg : Config) (w : Weights) (toks : List Int)
    (hwte : w.wte.length = cfg.vocab_size * cfg.n_embd)
    (hwpe : w.wpe.length = cfg.block_size * cfg.n_embd)
    (htlen : toks.length ≤ cfg.block_size)
    (hrange : ∀ tok ∈ toks, 0 ≤ tok ∧ tok < (cfg.vocab_size : Int)) :
    ∃ r, embedAll cfg w toks = some r ∧ r.length = toks.length := by
  rw [embedAll]
  have h : ∀ t ∈ List.range toks.length,
      (embedRow w.wte w.wpe cfg.n_embd (toks.getD t 0) t).isSome := by
    intro t ht
    have htl : t < toks.length := List.mem_range.mp ht
    obtain ⟨h0, h1⟩ := hrange _ (getD_mem_of_lt toks htl)
    exact embedRow_isSome hwte hwpe h0 h1 (lt_of_lt_of_le htl htlen)
  obtain ⟨r, hr, hlen⟩ := optMap_eq_some _ _ h
  rw [List.length_range] at hlen
  exact ⟨r, hr, hlen⟩

lemma forwardBody_neg_wrap (cfg : Config) (w : Weights) (toks : List Int)
    (hwte : w.wte.length = cfg.vocab_size * cfg.n_embd)
    (hrange : ∀ tok ∈ toks,
      -(cfg.vocab_size : Int) ≤ tok ∧ tok < (cfg.vocab_size : Int)) :
    forwardBody cfg w toks = forwardBody cfg w
      (toks.map (fun tok => if tok < 0 then tok + (cfg.vocab_size : Int) else tok)) := by
  rw [forwardBody, forwardBody, embedAll_neg_wrap cfg w toks hwte hrange]

lemma expLoop_mono : ∀ (fuel i : Nat), 1 ≤ i →
    ∀ {x x' term term' result result' : Int}, 0 ≤ x → x ≤ x' → 0 ≤ term →
      term ≤ term' → result ≤ result' →
      expLoop x fuel i term result ≤ expLoop x' fuel i term' result' := by
  intro fuel
  induction fuel with
  | zero =>
    intro i _ x x' term term' result result' _ _ _ _ hrr
    simpa [expLoop] using hrr
  | succ f ih =>
    intro i hi x x' term term' result result' hx hxx hterm htt hrr
    simp only [expLoop]
    have hi0 : (0 : Int) < (i : Int) := by exact_mod_cast hi
    have hSC : (0 : Int) < (i : Int) * SCALE :=
      mul_pos hi0 (by norm_num [SCALE])
    have hT2 : 0 ≤ (term * x).fdiv (i * SCALE) :=
      Int.fdiv_nonneg (mul_nonneg hterm hx) (le_of_lt hSC)
    have hT2' : 0 ≤ (term' * x').fdiv (i * SCALE) :=
      Int.fdiv_nonneg (mul_nonneg (le_trans hterm htt) (le_trans hx hxx))
        (le_of_lt hSC)
    have hle : (term * x).fdiv (i * SCALE) ≤ (term' * x').fdiv (i * SCALE) := by
      rw [Int.fdiv_eq_ediv _ (le_of_lt hSC), Int.fdiv_eq_ediv _ (le_of_lt hSC)]
      exact Int.ediv_le_ediv hSC (mul_le_mul htt hxx hx (le_trans hterm htt))
    split_ifs with h1 h2 h2
    · omega
    · have := expLoop_ge (le_trans hx hxx) f (i + 1) _
        (result' + (term' * x').fdiv (i * SCALE)) hT2'
      omega
    · omega
    · exact ih (i + 1) (by omega) hx hxx hT2 hle (by omega)

lemma ediv_antitone_divisor {a b c : Int} (ha : 0 ≤ a) (hb : 0 < b) (hbc : b ≤ c) :
    a / c ≤ a / b := by
  have hc : 0 < c := lt_of_lt_of_le hb hbc
  rw [Int.le_ediv_iff_mul_le hb]
  calc a / c * b ≤ a / c * c :=
        mul_le_mul_of_nonneg_left hbc (Int.ediv_nonneg ha (le_of_lt hc))
    _ ≤ a := Int.ediv_mul_le a (ne_of_gt hc)

lemma fp_exp_neg_branch {x : Int} (h1 : -(8 * SCALE) ≤ x) (h2 : x < 0) :
    fp_exp x = (SCALE * SCALE).fdiv (expLoop (-x) 15 1 SCALE SCALE) := by
  have hng : ¬ x > 8 * SCALE := by simp only [SCALE] at h2 ⊢; omega
  have hres := expLoop_ge_scale (x := -x) (by omega)
  have hne : expLoop (-x) 15 1 SCALE SCALE ≠ 0 := by
    have hS : (0 : Int) < SCALE := by norm_num [SCALE]
    omega
  rw [fp_exp, if_neg hng, if_neg (not_lt.mpr h1), if_pos h2]
  show (if expLoop (-x) 15 1 SCALE SCALE = 0 then 0
    else (SCALE * SCALE).fdiv (expLoop (-x) 15 1 SCALE SCALE)) = _
  rw [if_neg hne]

lemma fp_exp_pos_branch {x : Int} (h1 : 0 ≤ x) (h2 : x ≤ 8 * SCALE) :
    fp_exp x = expLoop x 15 1 SCALE SCALE := by
  have hng : ¬ x > 8 * SCALE := not_lt.mpr h2
  have h3 : ¬ x < -(8 * SCALE) := by simp only [SCALE] at h1 ⊢; omega
  have h4 : ¬ x < 0 := not_lt.mpr h1
  rw [fp_exp, if_neg hng, if_neg h3, if_neg h4]

lemma fp_exp_clamp_branch {x : Int} (h1 : 8 * SCALE < x) :
    fp_exp x = expLoop (8 * SCALE) 15 1 SCALE SCALE := by
  have h3 : ¬ (8 * SCALE : Int) < -(8 * SCALE) := by norm_num [SCALE]
  have h4 : ¬ (8 * SCALE : Int) < 0 := by norm_num [SCALE]
  rw [fp_exp, if_pos h1, if_neg h3, if_neg h4]

lemma fp_exp_ge_scale_of_nonneg {y : Int} (h : 0 ≤ y) : SCALE ≤ fp_exp y := by
  rcases le_or_lt y (8 * SCALE) with h2 | h2
  · rw [fp_exp_pos_branch h h2]
    exact expLoop_ge_scale h
  · rw [fp_exp_clamp_branch h2]
    exact expLoop_ge_scale (by norm_num [SCALE])

lemma fp_exp_neg_le_scale {x : Int} (h1 : -(8 * SCALE) ≤ x) (h2 : x < 0) :
    fp_exp x ≤ SCALE := by
  rw [fp_exp_neg_branch h1 h2]
  have hres := expLoop_ge_scale (x := -x) (by omega)
  have hS : (0 : Int) < SCALE := by norm_num [SCALE]
  have hE : (0 : Int) < expLoop (-x) 15 1 SCALE SCALE := lt_of_lt_of_le hS hres
  rw [Int.fdiv_eq_ediv _ (le_of_lt hE)]
  calc SCALE * SCALE / expLoop (-x) 15 1 SCALE SCALE ≤ SCALE * SCALE / SCALE :=
        ediv_antitone_divisor (by positivity) hS hres
    _ = SCALE := by
        rw [Int.mul_ediv_cancel_left _ (ne_of_gt hS)]

lemma forwardBody_isSome (cfg : Config) (w : Weights) (toks : List Int)
    (hwte : w.wte.length = cfg.vocab_size * cfg.n_embd)
    (hwpe : w.wpe.length = cfg.block_size * cfg.n_embd)
    (htlen : toks.length ≤ cfg.block_size) (hne : toks ≠ [])
    (hrange : ∀ tok ∈ toks, 0 ≤ tok ∧ tok < (cfg.vocab_size : Int)) :
    (forwardBody cfg w toks).isSome = true := by
  obtain ⟨r, hr, hlen⟩ := embedAll_some cfg w toks hwte hwpe htlen hrange
  have hrne : afterBlocks cfg w r ≠ [] := by
    apply List.ne_nil_of_length_pos
    rw [afterBlocks_length, hlen]
    exact List.length_pos.mpr hne
  obtain ⟨lastRow, hlast⟩ :=
    Option.isSome_iff_exists.mp (List.getLast?_isSome.mpr hrne)
  have hval : forwardBody cfg w toks =
      some (projectLogits cfg w.wte (layer_norm lastRow w.ln_f_w w.ln_f_b)) := by
    rw [forwardBody, hr]
    show (match (afterBlocks cfg w r).getLast? with
      | none => none
      | some lastRow =>
        some (projectLogits cfg w.wte (layer_norm lastRow w.ln_f_w w.ln_f_b))) = _
    rw [hlast]
  rw [hval]
  rfl

end ForwardRef

namespace ForwardRef

/-! ### Claim theorems -/

/-- C7 counterexample: at the closed bound `x = -8*SCALE` the code takes the
Taylor/reciprocal branch and returns 3, not 0, so "`fp_exp x` returns exactly
0 for every `x ≤ -8*SCALE`" is false at `x = -8*SCALE`. -/
theorem fp_exp_at_closed_bound_ne_zero :
    fp_exp (-(8 * SCALE)) = 3 ∧ fp_exp (-(8 * SCALE)) ≠ 0 := by
  constructor <;> decide

/-- C7 (amended): the fixed-point exponential returns exactly 0 for every
input strictly below the lower clamp bound, i.e. for every `x < -8*SCALE`. -/
theorem fp_exp_zero_below_clamp (x : Int) (h : x < -(8 * SCALE)) : fp_exp x = 0 :=
  fp_exp_eq_zero_of_lt h

/-- C7 witness: the amended theorem applied at `x = -80001`. -/
theorem fp_exp_zero_below_clamp_w : fp_exp (-80001) = 0 :=
  fp_exp_zero_below_clamp (-80001) (by norm_num [SCALE])

/-- C2: a sequence longer than `block_size` produces exactly the logits of
running the forward pass on its first `block_size` tokens, and a sequence of
length exactly `block_size` is passed to the pipeline unmodified. -/
theorem forward_truncation_first_tokens (cfg : Config) (w : Weights) (tokens : List Int) :
    (tokens.length > cfg.block_size →
      forward cfg w tokens = forward cfg w (tokens.take cfg.block_size)) ∧
    (tokens.length = cfg.block_size →
      forward cfg w tokens = forwardBody cfg w tokens) := by
  constructor
  · intro h
    have hlen : ¬ (tokens.take cfg.block_size).length > cfg.block_size := by
      rw [List.length_take]
      have := Nat.min_le_left cfg.block_size tokens.length
      omega
    rw [forward, forward, if_pos h, if_neg hlen]
  · intro h
    rw [forward, if_neg (by omega)]

/-- C2 witness: on the concrete model, a length-3 input gives the same logits
as its first two tokens, and a length-2 input is processed unmodified. -/
theorem forward_truncation_first_tokens_w :
    forward cfgX wX [0, 1, 0] = forward cfgX wX [0, 1] ∧
    forward cfgX wX [0, 1] = forwardBody cfgX wX [0, 1] := by
  constructor
  · exact (forward_truncation_first_tokens cfgX wX [0, 1, 0]).1 (by decide)
  · exact (forward_truncation_first_tokens cfgX wX [0, 1]).2 (by decide)

/-- C4: layer normalization returns at index `i` the value
`((input[i]-mean)*SCALE // std) * gamma[i] // SCALE + beta[i]`, where `mean`
is the floor-division average, the variance is the floored average of the
per-element squared deviations each first floor-divided by `SCALE`, and
`std = fp_sqrt(variance+100)` raised to at least 100. -/
theorem layer_norm_formula (inp gamma beta : List Int) (i : Nat) (h : i < inp.length) :
    (layer_norm inp gamma beta).getD i 0 =
      (((inp.getD i 0 -
            (∑ j ∈ Finset.range inp.length, inp.getD j 0).fdiv (inp.length : Int)) * SCALE).fdiv
          (max (fp_sqrt ((∑ j ∈ Finset.range inp.length,
              ((inp.getD j 0 -
                (∑ k ∈ Finset.range inp.length, inp.getD k 0).fdiv (inp.length : Int)) ^ 2).fdiv
                SCALE).fdiv (inp.length : Int) + 100)) 100)
        * gamma.getD i 0).fdiv SCALE + beta.getD i 0 := by
  simp only [layer_norm]
  rw [getD_map_range _ h, list_sum_map_getD, list_sum_getD inp, if_lt_eq_max]

/-- C4 witness: the formula applied to a concrete vector. -/
theorem layer_norm_formula_w : (layer_norm [5, 7] [10000, 10000] [1, 2]).getD 0 0 = -9 := by
  have h := layer_norm_formula [5, 7] [10000, 10000] [1, 2] 0 (by decide)
  rw [h]; decide

/-- C10: for every non-empty score list, the total of the shifted
exponentials inside `fp_softmax` is strictly positive (the maximum element
shifts to 0 and `fp_exp 0 = SCALE`), so the uniform fallback branch is
unreachable: `fp_softmax` always takes the division branch. -/
theorem softmax_total_pos_no_fallback (arr : List Int) (h : arr ≠ []) :
    0 < softmaxTotal arr ∧ fp_exp 0 = SCALE ∧
    fp_softmax arr =
      (softmaxExps arr).map (fun e => (e * SCALE).fdiv (softmaxTotal arr)) :=
  ⟨softmaxTotal_pos h, fp_exp_zero, fp_softmax_eq_div h⟩

/-- C6: for every non-empty score list, every output of the fixed-point
softmax is non-negative and the outputs sum to `SCALE` within plus-or-minus
the list length. -/
theorem softmax_nonneg_and_sum (arr : List Int) (h : arr ≠ []) :
    (∀ p ∈ fp_softmax arr, 0 ≤ p) ∧
    |(fp_softmax arr).sum - SCALE| ≤ (arr.length : Int) := by
  have hT : 0 < softmaxTotal arr := softmaxTotal_pos h
  have hTne : softmaxTotal arr ≠ 0 := ne_of_gt hT
  have hform := fp_softmax_eq_div h
  have hfd : ∀ e : Int, (e * SCALE).fdiv (softmaxTotal arr) =
      (e * SCALE) / softmaxTotal arr :=
    fun e => Int.fdiv_eq_ediv _ (le_of_lt hT)
  constructor
  · intro p hp
    rw [hform] at hp
    obtain ⟨e, he, rfl⟩ := List.mem_map.mp hp
    exact Int.fdiv_nonneg
      (mul_nonneg (softmaxExps_nonneg arr e he) (by norm_num [SCALE]))
      (le_of_lt hT)
  · rw [hform]
    have hsum : ((softmaxExps arr).map (fun e => (e * SCALE).fdiv (softmaxTotal arr))).sum =
        ((softmaxExps arr).map (fun e => (e * SCALE) / softmaxTotal arr)).sum := by
      congr 1
      exact List.map_congr_left (fun e _ => hfd e)
    rw [hsum]
    obtain ⟨hup, hlow⟩ := sum_ediv_bounds hT (softmaxExps arr)
    rw [softmaxExps_length] at hlow
    have hTsum : (softmaxExps arr).sum = softmaxTotal arr := rfl
    rw [hTsum] at hup hlow
    have hnn : (0 : Int) ≤ (arr.length : Int) := Int.natCast_nonneg _
    have hSC : (0 : Int) < SCALE := by norm_num [SCALE]
    rw [abs_le]
    constructor
    · nlinarith
    · nlinarith

/-- C6 witness: the theorem applied to the concrete row `[0, -10000]`. -/
theorem softmax_nonneg_and_sum_w :
    (∀ p ∈ fp_softmax [0, -10000], 0 ≤ p) ∧
    |(fp_softmax [0, -10000]).sum - SCALE| ≤ ((2 : Nat) : Int) :=
  softmax_nonneg_and_sum [0, -10000] (by decide)

/-- C5 counterexample: in a 1-wide, 1-head attention over the sequence
`[[0], [0]]` with zero QKV matrix and biases `q = -10^7, k = 10^7, v = 0`
(head 0 slices at offsets 0 and `n_embd = 1`, exactly as in
`multi_head_attention`), the real score at `(0,0)` is `-10^10`, below the
sentinel, so the row maximum is the sentinel itself and the post-softmax
weight assigned from query 0 to the future key 1 is `10000` — the full mass,
not "effectively zero". -/
theorem attn_future_weight_not_zero :
    (fp_softmax (attnScores
        (sliceHead (qkvProject [[0], [0]] 1 [0, 0, 0] [-10000000, 10000000, 0]) 0 1)
        (sliceHead (qkvProject [[0], [0]] 1 [0, 0, 0] [-10000000, 10000000, 0]) 1 1)
        1 (fp_sqrt (1 * SCALE)) 2 0)).getD 1 0 = 10000 ∧
    (fp_softmax (attnScores
        (sliceHead (qkvProject [[0], [0]] 1 [0, 0, 0] [-10000000, 10000000, 0]) 0 1)
        (sliceHead (qkvProject [[0], [0]] 1 [0, 0, 0] [-10000000, 10000000, 0]) 1 1)
        1 (fp_sqrt (1 * SCALE)) 2 0)).getD 1 0 ≠ 0 := by
  constructor <;> decide

/-- C5 (amended): in the attention score row for query `i`, every future
position `j > i` receives the raw sentinel score `-10^9` (no dot product),
and whenever the row's maximum score exceeds `-10^9 + 8*SCALE` (in
particular whenever any causal score does), the post-softmax weight of every
future position is exactly 0. The unconditional claim fails when all causal
scores lie below the sentinel; the counterexample forces this row-maximum
condition. -/
theorem attn_future_sentinel_and_zero_weight
    (Q K : List (List Int)) (head_dim : Nat) (scal : Int) (seq_len i j : Nat)
    (hj : j < seq_len) (hij : i < j)
    (hmax : -1000000000 + 8 * SCALE <
      listMax (attnScores Q K head_dim scal seq_len i)) :
    (attnScores Q K head_dim scal seq_len i).getD j 0 = -1000000000 ∧
    (fp_softmax (attnScores Q K head_dim scal seq_len i)).getD j 0 = 0 := by
  have hlen : (attnScores Q K head_dim scal seq_len i).length = seq_len := by
    rw [attnScores, List.length_map, List.length_range]
  have hsc : (attnScores Q K head_dim scal seq_len i).getD j 0 = -1000000000 := by
    rw [attnScores, getD_map_range _ hj, if_pos hij]
  refine ⟨hsc, ?_⟩
  have hne : attnScores Q K head_dim scal seq_len i ≠ [] := by
    intro hnil
    rw [hnil] at hlen
    simp at hlen
    omega
  rw [fp_softmax_eq_div hne]
  have hjl : j < (softmaxExps (attnScores Q K head_dim scal seq_len i)).length := by
    rw [softmaxExps_length, hlen]; exact hj
  rw [getD_map_of_lt _ _ hjl]
  have hexp : (softmaxExps (attnScores Q K head_dim scal seq_len i)).getD j 0 =
      fp_exp ((attnScores Q K head_dim scal seq_len i).getD j 0 -
        listMax (attnScores Q K head_dim scal seq_len i)) := by
    rw [softmaxExps, getD_map_of_lt _ _
      (show j < (attnScores Q K head_dim scal seq_len i).length by rw [hlen]; exact hj)]
  rw [hexp, hsc]
  rw [fp_exp_eq_zero_of_lt (by simp only [SCALE] at hmax ⊢; omega)]
  simp [Int.zero_fdiv]

/-- C5 witness: the amended theorem applied to the all-zero-weight instance,
where the diagonal score is 0 and the future weight is exactly 0. -/
theorem attn_future_sentinel_and_zero_weight_w :
    (attnScores (sliceHead (qkvProject [[0], [0]] 1 [0, 0, 0] [0, 0, 0]) 0 1)
       (sliceHead (qkvProject [[0], [0]] 1 [0, 0, 0] [0, 0, 0]) 1 1)
       1 (fp_sqrt (1 * SCALE)) 2 0).getD 1 0 = -1000000000 ∧
    (fp_softmax (attnScores
       (sliceHead (qkvProject [[0], [0]] 1 [0, 0, 0] [0, 0, 0]) 0 1)
       (sliceHead (qkvProject [[0], [0]] 1 [0, 0, 0] [0, 0, 0]) 1 1)
       1 (fp_sqrt (1 * SCALE)) 2 0)).getD 1 0 = 0 :=
  attn_future_sentinel_and_zero_weight _ _ 1 (fp_sqrt (1 * SCALE)) 2 0 1
    (by decide) (by decide) (by decide)

set_option maxRecDepth 10000 in
/-- C1 (code bug): the forward pass has no token-range guard. With
`vocab_size = 2`, the out-of-range token id `-1` does not make the call fail
with a `TokenRangeError` before the embedding lookup: the lookup itself runs
with a negative offset, silently wraps to the last embedding row, and the
call returns logits. -/
theorem forward_accepts_out_of_range_token :
    (forward cfgX wX [-1]).isSome = true ∧
    forward cfgX wX [-1] = some [19699, 15148] := by
  constructor <;> decide

/-- C3: on success the forward pass returns exactly `vocab_size` logits,
and the `v`-th logit is `Σ_i last_hidden[i]*wte[v*n_embd+i] // SCALE`, where
`last_hidden` is the final layer norm applied to the last token position of
the post-block hidden state only; no bias is added and the token-embedding
matrix `wte` doubles as the projection matrix. -/
theorem forward_logits_formula (cfg : Config) (w : Weights) (tokens : List Int)
    (logits : List Int) (h : forward cfg w tokens = some logits) :
    logits.length = cfg.vocab_size ∧
    ∀ v, v < cfg.vocab_size →
      logits.getD v 0 = ∑ i ∈ Finset.range cfg.n_embd,
        ((layer_norm ((afterBlocks cfg w ((embedAll cfg w
              (if tokens.length > cfg.block_size then tokens.take cfg.block_size
               else tokens)).getD [])).getLast?.getD [])
            w.ln_f_w w.ln_f_b).getD i 0 *
          w.wte.getD (v * cfg.n_embd + i) 0).fdiv SCALE := by
  set toks := if tokens.length > cfg.block_size then tokens.take cfg.block_size
    else tokens with htoks
  rw [forward, forwardBody] at h
  split at h
  · exact absurd h (by simp)
  · next hidden0 hemb =>
    split at h
    · exact absurd h (by simp)
    · next lastRow hlast =>
      rw [Option.some.injEq] at h
      subst h
      rw [hemb]
      simp only [Option.getD_some]
      rw [hlast]
      simp only [Option.getD_some]
      constructor
      · rw [projectLogits, List.length_map, List.length_range]
      · intro v hv
        rw [projectLogits, getD_map_range _ hv, sum_range_list]

set_option maxRecDepth 10000 in
/-- C3 witness: the theorem applied to the concrete model and the token
sequence `[0]`, whose forward pass returns `some [19791, 15217]`. -/
theorem forward_logits_formula_w :
    ([19791, 15217] : List Int).length = cfgX.vocab_size ∧
    ∀ v, v < cfgX.vocab_size →
      ([19791, 15217] : List Int).getD v 0 = ∑ i ∈ Finset.range cfgX.n_embd,
        ((layer_norm ((afterBlocks cfgX wX ((embedAll cfgX wX
              (if ([0] : List Int).length > cfgX.block_size
               then ([0] : List Int).take cfgX.block_size
               else ([0] : List Int))).getD [])).getLast?.getD [])
            wX.ln_f_w wX.ln_f_b).getD i 0 *
          wX.wte.getD (v * cfgX.n_embd + i) 0).fdiv SCALE :=
  forward_logits_formula cfgX wX [0] [19791, 15217] (by decide)

/-- C9: for a token sequence whose ids all lie in `[-V, V)` and that
contains a negative id (with well-formed `wte`/`wpe` tables and a positive
`block_size`), the forward pass does not fail, and returns exactly the
logits of the same sequence with every negative id `tok` replaced by
`tok + V` — Python's negative list indexing wraps the flattened
token-embedding lookup to offset `(tok+V)*n_embd`. -/
theorem forward_wraps_negative_tokens (cfg : Config) (w : Weights) (tokens : List Int)
    (hwte : w.wte.length = cfg.vocab_size * cfg.n_embd)
    (hwpe : w.wpe.length = cfg.block_size * cfg.n_embd)
    (hbs : 0 < cfg.block_size)
    (hrange : ∀ tok ∈ tokens,
      -(cfg.vocab_size : Int) ≤ tok ∧ tok < (cfg.vocab_size : Int))
    (hneg : ∃ tok ∈ tokens, tok < 0) :
    (forward cfg w tokens).isSome = true ∧
    forward cfg w tokens = forward cfg w
      (tokens.map (fun tok =>
        if tok < 0 then tok + (cfg.vocab_size : Int) else tok)) := by
  have key : ∀ toks : List Int, toks.length ≤ cfg.block_size → toks ≠ [] →
      (∀ tok ∈ toks, -(cfg.vocab_size : Int) ≤ tok ∧ tok < (cfg.vocab_size : Int)) →
      (forwardBody cfg w toks).isSome = true ∧
      forwardBody cfg w toks = forwardBody cfg w (toks.map (fun tok =>
        if tok < 0 then tok + (cfg.vocab_size : Int) else tok)) := by
    intro toks hlen hne hr
    have heq := forwardBody_neg_wrap cfg w toks hwte hr
    have hmr : ∀ tok ∈ toks.map (fun tok =>
        if tok < 0 then tok + (cfg.vocab_size : Int) else tok),
        0 ≤ tok ∧ tok < (cfg.vocab_size : Int) := by
      intro tk hk
      obtain ⟨tok, hmem, rfl⟩ := List.mem_map.mp hk
      obtain ⟨hlo, hhi⟩ := hr tok hmem
      by_cases hneg2 : tok < 0
      · rw [if_pos hneg2]; omega
      · rw [if_neg hneg2]; omega
    have hsome := forwardBody_isSome cfg w
      (toks.map (fun tok => if tok < 0 then tok + (cfg.vocab_size : Int) else tok))
      hwte hwpe (by rw [List.length_map]; exact hlen)
      (fun hnil => hne (List.map_eq_nil_iff.mp hnil)) hmr
    exact ⟨by rw [heq]; exact hsome, heq⟩
  obtain ⟨tok0, htok0, _⟩ := hneg
  have htokens_ne : tokens ≠ [] := List.ne_nil_of_mem htok0
  by_cases hlong : tokens.length > cfg.block_size
  · have h1 : forward cfg w tokens = forwardBody cfg w (tokens.take cfg.block_size) := by
      rw [forward, if_pos hlong]
    have h2 : forward cfg w (tokens.map (fun tok =>
        if tok < 0 then tok + (cfg.vocab_size : Int) else tok)) =
        forwardBody cfg w ((tokens.take cfg.block_size).map (fun tok =>
          if tok < 0 then tok + (cfg.vocab_size : Int) else tok)) := by
      rw [forward, if_pos (by rw [List.length_map]; exact hlong), ← List.map_take]
    obtain ⟨hs, he⟩ := key (tokens.take cfg.block_size)
      (by rw [List.length_take]; exact Nat.min_le_left _ _)
      (by
        apply List.ne_nil_of_length_pos
        rw [List.length_take]
        have : 0 < tokens.length := List.length_pos.mpr htokens_ne
        omega)
      (fun tok h => hrange tok (List.mem_of_mem_take h))
    exact ⟨by rw [h1]; exact hs, by rw [h1, h2]; exact he⟩
  · have h1 : forward cfg w tokens = forwardBody cfg w tokens := by
      rw [forward, if_neg hlong]
    have h2 : forward cfg w (tokens.map (fun tok =>
        if tok < 0 then tok + (cfg.vocab_size : Int) else tok)) =
        forwardBody cfg w (tokens.map (fun tok =>
          if tok < 0 then tok + (cfg.vocab_size : Int) else tok)) := by
      rw [forward, if_neg (by rw [List.length_map]; exact hlong)]
    obtain ⟨hs, he⟩ := key tokens (by omega) htokens_ne hrange
    exact ⟨by rw [h1]; exact hs, by rw [h1, h2]; exact he⟩

set_option maxRecDepth 10000 in
/-- C9 witness: the theorem applied to the concrete model and the sequence
`[-1]`, which wraps to `[1]`. -/
theorem forward_wraps_negative_tokens_w :
    (forward cfgX wX [-1]).isSome = true ∧
    forward cfgX wX [-1] = forward cfgX wX
      (([-1] : List Int).map (fun tok =>
        if tok < 0 then tok + (cfgX.vocab_size : Int) else tok)) :=
  forward_wraps_negative_tokens cfgX wX [-1] (by decide) (by decide) (by decide)
    (by decide) ⟨-1, by decide, by decide⟩

/-- C8: the fixed-point exponential is monotonically non-decreasing over all
integers, across the zero-below-clamp region, the reciprocal branch for
negative inputs, the Taylor branch, and the upper clamp. -/
theorem fp_exp_monotone (x y : Int) (h : x ≤ y) : fp_exp x ≤ fp_exp y := by
  rcases lt_or_le x (-(8 * SCALE)) with hx1 | hx1
  · rw [fp_exp_eq_zero_of_lt hx1]
    exact fp_exp_nonneg y
  · rcases lt_or_le x 0 with hx2 | hx2
    · rcases lt_or_le y 0 with hy2 | hy2
      · have hy1 : -(8 * SCALE) ≤ y := le_trans hx1 h
        rw [fp_exp_neg_branch hx1 hx2, fp_exp_neg_branch hy1 hy2]
        have hS : (0 : Int) < SCALE := by norm_num [SCALE]
        have hEy := expLoop_ge_scale (x := -y) (by omega)
        have hEx := expLoop_ge_scale (x := -x) (by omega)
        have hEypos : (0 : Int) < expLoop (-y) 15 1 SCALE SCALE :=
          lt_of_lt_of_le hS hEy
        have hExpos : (0 : Int) < expLoop (-x) 15 1 SCALE SCALE :=
          lt_of_lt_of_le hS hEx
        have hmono : expLoop (-y) 15 1 SCALE SCALE ≤ expLoop (-x) 15 1 SCALE SCALE :=
          expLoop_mono 15 1 (le_refl 1) (by omega) (by omega) (le_of_lt hS)
            (le_refl _) (le_refl _)
        rw [Int.fdiv_eq_ediv _ (le_of_lt hExpos), Int.fdiv_eq_ediv _ (le_of_lt hEypos)]
        exact ediv_antitone_divisor (by nlinarith) hEypos hmono
      · exact le_trans (fp_exp_neg_le_scale hx1 hx2) (fp_exp_ge_scale_of_nonneg hy2)
    · have hy2 : 0 ≤ y := le_trans hx2 h
      rcases le_or_lt x (8 * SCALE) with hx3 | hx3
      · rw [fp_exp_pos_branch hx2 hx3]
        rcases le_or_lt y (8 * SCALE) with hy3 | hy3
        · rw [fp_exp_pos_branch hy2 hy3]
          exact expLoop_mono 15 1 (le_refl 1) hx2 h (by norm_num [SCALE])
            (le_refl _) (le_refl _)
        · rw [fp_exp_clamp_branch hy3]
          exact expLoop_mono 15 1 (le_refl 1) hx2 hx3 (by norm_num [SCALE])
            (le_refl _) (le_refl _)
      · have hy3 : 8 * SCALE < y := lt_of_lt_of_le hx3 h
        rw [fp_exp_clamp_branch hx3, fp_exp_clamp_branch hy3]

/-- C8 witness: the theorem applied at `x = -1 ≤ y = 0`, crossing the
reciprocal branch into the Taylor branch. -/
theorem fp_exp_monotone_w : fp_exp (-1) ≤ fp_exp 0 :=
  fp_exp_monotone (-1) 0 (by norm_num)

/-- C10 witness: the theorem applied to the singleton list `[0]`. -/
theorem softmax_total_pos_no_fallback_w :
    0 < softmaxTotal [0] ∧ fp_exp 0 = SCALE ∧
    fp_softmax [0] =
      (softmaxExps [0]).map (fun e => (e * SCALE).fdiv (softmaxTotal [0])) :=
  softmax_total_pos_no_fallback [0] (by decide)

end ForwardRef
